import Mathlib

/-!
Shallow embedding of the reconciliation logic of `src/index.js` (a GitHub
action that synchronizes local Debian package artifacts against the
component inventory of a Nexus registry).

The registry is modelled as response oracles (functions from request data to
an HTTP outcome) and the network activity of a run is recorded as an explicit
trace of `NetCall` values.  File-system reads and package-metadata
extraction, which the program performs before any per-artifact network
activity, are modelled by the `ArtifactData` record attached to each file.
-/

namespace NexusUpload

/-- JS `s || d` for strings: the empty string is falsy. -/
def jsOrElse (s d : String) : String :=
  if s = "" then d else s

/-- JS `o || d` for a field that may be `null`/absent or an empty string. -/
def jsOptOrElse (o : Option String) (d : String) : String :=
  match o with
  | none => d
  | some s => jsOrElse s d

/-- The `{name, group, version}` object produced by `getDebInfoWithDpkg` /
`extractInfoFromFilename` in `src/index.js`. -/
structure FileInfo where
  name : String
  group : String
  version : String
deriving DecidableEq

/-- One entry of the component list built by `getComponents`
(`{id, name, group, version, sha256}` in `src/index.js`). -/
structure Component where
  id : String
  name : String
  group : String
  version : String
  sha256 : String
deriving DecidableEq

/-- The `checksum` object of an asset in a registry response item. -/
structure Checksum where
  sha256 : Option String
deriving DecidableEq

/-- One element of `item.assets` in a registry response item. -/
structure Asset where
  checksum : Option Checksum
deriving DecidableEq

/-- One raw item of a `GET /service/rest/v1/components` response page. -/
structure Item where
  id : String
  name : String
  group : Option String
  version : Option String
  assets : List Asset
deriving DecidableEq

/-- One response page of the paginated component listing:
`{items, continuationToken}`. -/
structure Page where
  items : List Item
  continuationToken : Option String
deriving DecidableEq

/-- Outcome of one HTTP request: a response with a status code, or a
transport/auth error (axios throwing). -/
inductive HttpResult where
  | ok (status : Nat)
  | err
deriving DecidableEq

/-- One network request issued against the registry. -/
inductive NetCall where
  | listPage (token : Option String)
  | delete (id : String)
  | upload (path : String)
  | listTasks
  | runTask (id : String)
deriving DecidableEq

/-- `true` exactly for the two maintenance-task endpoints
(`GET /service/rest/v1/tasks` and `POST /service/rest/v1/tasks/:id/run`). -/
def isTaskCall : NetCall → Bool
  | NetCall.listTasks => true
  | NetCall.runTask _ => true
  | _ => false

/-- `true` exactly for component-listing (inventory) page requests. -/
def isListCall : NetCall → Bool
  | NetCall.listPage _ => true
  | _ => false

/-- The ids of the `DELETE` requests contained in a trace. -/
def deleteCallsOf (tr : List NetCall) : List String :=
  tr.filterMap fun c =>
    match c with
    | NetCall.delete i => some i
    | _ => none

/-- The file paths of the upload requests contained in a trace. -/
def uploadCallsOf (tr : List NetCall) : List String :=
  tr.filterMap fun c =>
    match c with
    | NetCall.upload p => some p
    | _ => none

/-- How `getComponents` in `src/index.js` turns one raw response item into a
component record: `group`/`version` default to `"-"` when falsy, and
`sha256` is taken from the first asset's checksum when present, else `"-"`. -/
def parseItem (item : Item) : Component :=
  { id := item.id
    name := item.name
    group := jsOptOrElse item.group "-"
    version := jsOptOrElse item.version "-"
    sha256 :=
      match item.assets with
      | [] => "-"
      | a :: _ =>
        match a.checksum with
        | none => "-"
        | some c => jsOptOrElse c.sha256 "-" }

/-- The `do ... while (continuationToken)` loop of `getComponents`.
`pages` is the sequence of responses the registry returns to the successive
page requests (a well-formed interaction provides at least one response);
`token` is the continuation token sent with the next request (`none` on the
first request).  Each iteration records a `listPage` request, appends the
parsed items, and continues exactly when the response carries a
continuation token. -/
def getComponentsLoop (token : Option String) : List Page → List NetCall × List Component
  | [] => ([], [])
  | p :: rest =>
    let parsed := p.items.map parseItem
    match p.continuationToken with
    | none => ([NetCall.listPage token], parsed)
    | some t =>
      let r := getComponentsLoop (some t) rest
      (NetCall.listPage token :: r.1, parsed ++ r.2)

/-- `getComponents` of `src/index.js`: returns the issued page requests and
the accumulated component list. -/
def getComponents (pages : List Page) : List NetCall × List Component :=
  getComponentsLoop none pages

/-- `deleteComponent` of `src/index.js`, applied to the registry's response.
Returns `(success, hasDeletedComponent)`: the global flag is set to `true`
exactly when the response status is 204; any other status or a thrown error
is logged, returns `false` and leaves the flag unchanged.  The function
never throws. -/
def deleteComponent (resp : HttpResult) (hasDeleted : Bool) : Bool × Bool :=
  match resp with
  | HttpResult.ok status => if status = 204 then (true, true) else (false, hasDeleted)
  | HttpResult.err => (false, hasDeleted)

/-- `uploadComponent` of `src/index.js`, applied to the registry's response:
`true` on status 204, `false` on any other status, and `false` on a thrown
error (the whole body is wrapped in `try/catch`, so the function never
throws). -/
def uploadComponent (resp : HttpResult) : Bool :=
  match resp with
  | HttpResult.ok status => if status = 204 then true else false
  | HttpResult.err => false

/-- The matching condition of the component loop in `processSingleFile`
(`src/index.js` lines 368-370): names equal, groups equal or either side the
`"-"` sentinel, versions equal or either side the sentinel. -/
def componentMatches (comp : Component) (info : FileInfo) : Bool :=
  comp.name == info.name &&
  (comp.group == info.group || comp.group == "-" || info.group == "-") &&
  (comp.version == info.version || comp.version == "-" || info.version == "-")

/-- Per-artifact data determined before the artifact's network activity:
the extracted `{name, group, version}` descriptor, the SHA-256 of the file
contents, and whether reading the file (`readFileAsync`, the only statement
of `processSingleFile` that can throw) fails. -/
structure ArtifactData where
  info : FileInfo
  sha256 : String
  readError : Bool
deriving DecidableEq

/-- One iteration of the `for (const comp of components)` loop in
`processSingleFile`: state is `(needUpload, trace, hasDeletedComponent)`.
A matching record with equal SHA-256 clears `needUpload`; a matching record
with a different (or missing, i.e. `"-"`) SHA-256 is deleted, the delete
response updating the flag; a non-matching record leaves the state
unchanged. -/
def scanStep (deleteResp : String → HttpResult) (info : FileInfo) (sha : String)
    (st : Bool × List NetCall × Bool) (comp : Component) : Bool × List NetCall × Bool :=
  if componentMatches comp info then
    if comp.sha256 == sha then
      (false, st.2.1, st.2.2)
    else
      (st.1, st.2.1 ++ [NetCall.delete comp.id], (deleteComponent (deleteResp comp.id) st.2.2).2)
  else st

/-- The whole component loop of `processSingleFile`, starting from
`needUpload = true` and an empty trace. -/
def scanComponents (deleteResp : String → HttpResult) (info : FileInfo) (sha : String)
    (comps : List Component) (hasDeleted : Bool) : Bool × List NetCall × Bool :=
  comps.foldl (scanStep deleteResp info sha) (true, [], hasDeleted)

/-- `processSingleFile` of `src/index.js`.  `none` models the function
throwing (only the file read can throw; it happens before any network call
of this artifact, so a throwing call contributes no requests).  Otherwise
the component loop runs and, when `needUpload` survived it, one upload
request is issued; `uploadComponent`'s boolean result is ignored by the
caller, exactly as in the source. -/
def processSingleFile (deleteResp uploadResp : String → HttpResult) (path : String)
    (a : ArtifactData) (comps : List Component) (hasDeleted : Bool) :
    Option (List NetCall × Bool) :=
  if a.readError then none
  else
    let st := scanComponents deleteResp a.info a.sha256 comps hasDeleted
    if st.1 then
      let _ := uploadComponent (uploadResp path)
      some (st.2.1 ++ [NetCall.upload path], st.2.2)
    else some (st.2.1, st.2.2)

/-- One item of the `GET /service/rest/v1/tasks` response. -/
structure TaskItem where
  id : String
  type : String
deriving DecidableEq

/-- `runRebuildAptMetadata` of `src/index.js`: lists the registry's
maintenance tasks (`tasksResp = none` models the listing request failing),
looks for the task of type `repository.apt.rebuild.metadata`, and, when
found, posts to its run endpoint.  Every failure path is caught and returns
`false`; the function never throws.  Returns the issued requests and the
boolean result. -/
def runRebuildAptMetadata (tasksResp : Option (List TaskItem))
    (taskRunResp : String → HttpResult) : List NetCall × Bool :=
  match tasksResp with
  | none => ([NetCall.listTasks], false)
  | some items =>
    match items.find? (fun t => t.type == "repository.apt.rebuild.metadata") with
    | none => ([NetCall.listTasks], false)
    | some t =>
      ([NetCall.listTasks, NetCall.runTask t.id],
       match taskRunResp t.id with
       | HttpResult.ok status => if status = 204 then true else false
       | HttpResult.err => false)

/-- The `path` input of `run`, after `statAsync`: a single file, a
directory with its entries, or neither (including `statAsync` throwing). -/
inductive Target where
  | file (path : String) (a : ArtifactData)
  | dir (path : String) (entries : List (String × ArtifactData))
  | other
deriving DecidableEq

/-- The environment of one `run` invocation: the registry's responses
(listing pages, per-id delete responses, per-path upload responses, task
listing, per-id task-run responses) and the resolved target path. -/
structure RunEnv where
  pages : List Page
  target : Target
  deleteResp : String → HttpResult
  uploadResp : String → HttpResult
  tasksResp : Option (List TaskItem)
  taskRunResp : String → HttpResult

/-- Observable outcome of `run`: whether `core.setFailed` was called, the
trace of registry requests, and the final value of the global
`hasDeletedComponent` flag. -/
structure RunResult where
  failed : Bool
  trace : List NetCall
  hasDeleted : Bool
deriving DecidableEq

/-- ASCII lower-casing of one character, as JS `toLowerCase` acts on the
ASCII range relevant to file extensions. -/
def lowerChar (c : Char) : Char :=
  if 'A' ≤ c ∧ c ≤ 'Z' then Char.ofNat (c.toNat + 32) else c

/-- `uploadPath.toLowerCase().endsWith('.deb')` of `src/index.js`, modelled
on the character list of the path. -/
def endsWithDeb (s : String) : Bool :=
  List.isSuffixOf ".deb".data (s.data.map lowerChar)

/-- The per-entry path used by the directory branch of `run`:
`uploadPath === '.' ? file : path.join(uploadPath, file)`. -/
def joinPath (d file : String) : String :=
  if d = "." then file else d ++ "/" ++ file

/-- The `for (const file of debFiles)` loop of `run`: processes each file in
order, threading the `hasDeletedComponent` flag; a thrown per-file error
aborts the loop.  Returns `(trace, flag, aborted)`. -/
def processFiles (deleteResp uploadResp : String → HttpResult) (comps : List Component) :
    List (String × ArtifactData) → Bool → List NetCall × Bool × Bool
  | [], fl => ([], fl, false)
  | (p, a) :: rest, fl =>
    match processSingleFile deleteResp uploadResp p a comps fl with
    | none => ([], fl, true)
    | some (tr, fl') =>
      let r := processFiles deleteResp uploadResp comps rest fl'
      (tr ++ r.1, r.2.1, r.2.2)

/-- The tail of `run` after the target was processed without a thrown
error: when the `hasDeletedComponent` flag is set, `runRebuildAptMetadata`
is invoked (its result ignored); then `core.setOutput` reports success. -/
def finishRun (pre : List NetCall) (fl : Bool) (env : RunEnv) : RunResult :=
  if fl then
    let r := runRebuildAptMetadata env.tasksResp env.taskRunResp
    { failed := false, trace := pre ++ r.1, hasDeleted := fl }
  else { failed := false, trace := pre, hasDeleted := fl }

/-- `run` of `src/index.js`.  The component inventory is fetched first; then
the target is dispatched: a single file must end in `.deb` (case
insensitively) or the run fails at once; a directory is filtered to its
`.deb` entries, which are processed in order; any thrown per-file error is
caught at the bottom of `run` and reported through `core.setFailed`, and
the conditional metadata rebuild is then skipped. -/
def run (env : RunEnv) : RunResult :=
  let lc := getComponents env.pages
  match env.target with
  | Target.file p a =>
    if endsWithDeb p then
      match processSingleFile env.deleteResp env.uploadResp p a lc.2 false with
      | none => { failed := true, trace := lc.1, hasDeleted := false }
      | some (tr, fl) => finishRun (lc.1 ++ tr) fl env
    else { failed := true, trace := lc.1, hasDeleted := false }
  | Target.dir p entries =>
    let debs := entries.filter (fun e => endsWithDeb e.1)
    let files := debs.map (fun e => (joinPath p e.1, e.2))
    let r := processFiles env.deleteResp env.uploadResp lc.2 files false
    if r.2.2 then { failed := true, trace := lc.1 ++ r.1, hasDeleted := r.2.1 }
    else finishRun (lc.1 ++ r.1) r.2.1 env
  | Target.other => { failed := true, trace := lc.1, hasDeleted := false }

/-- JS `String.prototype.split` with a single-character separator, on the
character list of the string: splits at every occurrence of `sep`; the
result is never empty and keeps empty fragments, exactly as in JS. -/
def splitChars (sep : Char) : List Char → List (List Char)
  | [] => [[]]
  | c :: cs =>
    match splitChars sep cs with
    | [] => [[]]
    | p :: ps => if c = sep then [] :: p :: ps else (c :: p) :: ps

/-- JS `s.split(sep)` for a one-character separator. -/
def jsSplit (sep : Char) (s : String) : List String :=
  (splitChars sep s.data).map String.mk

/-- `extractInfoFromFilename` of `src/index.js`, applied to the basename of
the file with its `.deb` suffix already stripped
(`path.basename(filename, '.deb')`).  The basename is split on `_`;
`parts[0]` is the name, the last part is the group, and the middle parts
joined with `_` are the version (empty unless there are more than two
parts); each field falls back to `"-"` when it is the empty string. -/
def extractInfoFromFilename (basename : String) : FileInfo :=
  let parts := jsSplit '_' basename
  let name := parts.headD ""
  let group := parts.getLastD ""
  let version :=
    if parts.length > 2 then String.intercalate "_" ((parts.drop 1).dropLast) else ""
  { name := jsOrElse name "-"
    group := jsOrElse group "-"
    version := jsOrElse version "-" }

/-! ## Characterization lemmas -/

theorem deleteComponent_flag (resp : HttpResult) (fl : Bool) :
    (deleteComponent resp fl).2 = (fl || (resp == HttpResult.ok 204)) := by
  cases resp with
  | ok s =>
    by_cases h : s = 204
    · subst h; simp [deleteComponent]
    · simp [deleteComponent, h]
  | err => simp [deleteComponent]

theorem scanFoldl_eq (d : String → HttpResult) (info : FileInfo) (sha : String) :
    ∀ (comps : List Component) (b : Bool) (tr : List NetCall) (fl : Bool),
    List.foldl (scanStep d info sha) (b, tr, fl) comps =
      (b && comps.all (fun c => !(componentMatches c info && c.sha256 == sha)),
       tr ++ (comps.filter (fun c => componentMatches c info && !(c.sha256 == sha))).map
         (fun c => NetCall.delete c.id),
       fl || comps.any (fun c => componentMatches c info && !(c.sha256 == sha)
         && (d c.id == HttpResult.ok 204))) := by
  intro comps
  induction comps with
  | nil => intro b tr fl; simp
  | cons c cs ih =>
    intro b tr fl
    rw [List.foldl_cons]
    by_cases hm : componentMatches c info = true
    · by_cases hs : (c.sha256 == sha) = true
      · rw [show scanStep d info sha (b, tr, fl) c = (false, tr, fl) from by
          simp [scanStep, hm, hs]]
        rw [ih]
        simp [hm, hs]
      · rw [show scanStep d info sha (b, tr, fl) c =
            (b, tr ++ [NetCall.delete c.id], fl || (d c.id == HttpResult.ok 204)) from by
          simp [scanStep, hm, hs, deleteComponent_flag]]
        rw [ih]
        simp [hm, hs, Bool.or_assoc]
    · rw [show scanStep d info sha (b, tr, fl) c = (b, tr, fl) from by
        simp [scanStep, hm]]
      rw [ih]
      simp [hm]

theorem scanComponents_eq (d : String → HttpResult) (info : FileInfo) (sha : String)
    (comps : List Component) (fl : Bool) :
    scanComponents d info sha comps fl =
      (comps.all (fun c => !(componentMatches c info && c.sha256 == sha)),
       (comps.filter (fun c => componentMatches c info && !(c.sha256 == sha))).map
         (fun c => NetCall.delete c.id),
       fl || comps.any (fun c => componentMatches c info && !(c.sha256 == sha)
         && (d c.id == HttpResult.ok 204))) := by
  unfold scanComponents
  rw [scanFoldl_eq]
  simp

theorem processSingleFile_eq (d u : String → HttpResult) (p : String) (info : FileInfo)
    (sha : String) (comps : List Component) (fl : Bool) :
    processSingleFile d u p ⟨info, sha, false⟩ comps fl =
      some ((comps.filter (fun c => componentMatches c info && !(c.sha256 == sha))).map
              (fun c => NetCall.delete c.id) ++
            (if comps.all (fun c => !(componentMatches c info && c.sha256 == sha))
             then [NetCall.upload p] else []),
            fl || comps.any (fun c => componentMatches c info && !(c.sha256 == sha)
              && (d c.id == HttpResult.ok 204))) := by
  unfold processSingleFile
  cases hall : comps.all (fun c => !(componentMatches c info && c.sha256 == sha)) with
  | false =>
    simp [scanComponents_eq, hall]
    simpa using hall
  | true =>
    simp [scanComponents_eq, hall]
    intro x hx hm
    simp only [List.all_eq_true] at hall
    have := hall x hx
    simp [hm] at this
    exact this

theorem getComponentsLoop_calls (ps : List Page) :
    ∀ t : Option String, ((getComponentsLoop t ps).1).all isListCall = true := by
  induction ps with
  | nil => intro t; simp [getComponentsLoop]
  | cons p rest ih =>
    intro t
    unfold getComponentsLoop
    cases h : p.continuationToken with
    | none => simp [isListCall]
    | some tok => simp [isListCall, ih]

theorem getComponentsLoop_spec (last : Page) (hlast : last.continuationToken = none)
    (mid : List Page) :
    ∀ t : Option String, (∀ p ∈ mid, p.continuationToken ≠ none) →
    getComponentsLoop t (mid ++ [last]) =
      (NetCall.listPage t :: mid.map (fun p => NetCall.listPage p.continuationToken),
       ((mid ++ [last]).map (fun p => p.items.map parseItem)).flatten) := by
  induction mid with
  | nil =>
    intro t _
    simp [getComponentsLoop, hlast]
  | cons q qs ih =>
    intro t hmid
    have hq : q.continuationToken ≠ none := hmid q (by simp)
    cases hq2 : q.continuationToken with
    | none => exact absurd hq2 hq
    | some tok =>
      have ihr := ih (some tok) (fun p hp => hmid p (by simp [hp]))
      simp [getComponentsLoop, hq2, ihr]

theorem processFiles_not_aborted (d u : String → HttpResult) (comps : List Component) :
    ∀ (l : List (String × ArtifactData)) (fl : Bool),
    (∀ e ∈ l, e.2.readError = false) →
    (processFiles d u comps l fl).2.2 = false := by
  intro l
  induction l with
  | nil => intro fl _; simp [processFiles]
  | cons e rest ih =>
    intro fl h
    obtain ⟨p, a⟩ := e
    obtain ⟨ainfo, asha, ard⟩ := a
    have ha : ard = false := h (p, ArtifactData.mk ainfo asha ard) (by simp)
    subst ha
    unfold processFiles
    rw [processSingleFile_eq]
    exact ih _ (fun x hx => h x (List.mem_cons_of_mem _ hx))

theorem processFiles_upload_mem (d u : String → HttpResult) (comps : List Component) :
    ∀ (l : List (String × ArtifactData)) (fl : Bool) (e : String × ArtifactData),
    e ∈ l → (∀ x ∈ l, x.2.readError = false) →
    comps.all (fun c => !(componentMatches c e.2.info && c.sha256 == e.2.sha256)) = true →
    NetCall.upload e.1 ∈ (processFiles d u comps l fl).1 := by
  intro l
  induction l with
  | nil => intro fl e he; simp at he
  | cons q rest ih =>
    intro fl e he h hall
    obtain ⟨p, a⟩ := q
    obtain ⟨ainfo, asha, ard⟩ := a
    have ha : ard = false := h (p, ArtifactData.mk ainfo asha ard) (by simp)
    subst ha
    unfold processFiles
    rw [processSingleFile_eq]
    rcases List.mem_cons.mp he with rfl | hmem
    · simp only at hall ⊢
      rw [if_pos hall]
      simp
    · exact List.mem_append_right _ (ih _ e hmem (fun x hx => h x (List.mem_cons_of_mem _ hx)) hall)

theorem scan_flag_origin (d : String → HttpResult) (info : FileInfo) (sha : String)
    (comps : List Component) (fl : Bool)
    (h : (scanComponents d info sha comps fl).2.2 = true) :
    fl = true ∨ ∃ i, NetCall.delete i ∈ (scanComponents d info sha comps fl).2.1 ∧
      d i = HttpResult.ok 204 := by
  rw [scanComponents_eq] at h ⊢
  simp only [Bool.or_eq_true, List.any_eq_true] at h
  rcases h with h | ⟨c, hc, hpred⟩
  · exact Or.inl h
  · refine Or.inr ⟨c.id, ?_, ?_⟩
    · simp only [List.mem_map]
      refine ⟨c, ?_, rfl⟩
      rw [List.mem_filter]
      exact ⟨hc, by simp_all⟩
    · have : (d c.id == HttpResult.ok 204) = true := by simp_all
      exact eq_of_beq this

theorem psf_flag_origin (d u : String → HttpResult) (p : String) (a : ArtifactData)
    (comps : List Component) (fl : Bool) :
    ∀ tr fl', processSingleFile d u p a comps fl = some (tr, fl') → fl' = true →
    fl = true ∨ ∃ i, NetCall.delete i ∈ tr ∧ d i = HttpResult.ok 204 := by
  obtain ⟨ai, as, ar⟩ := a
  cases ar with
  | true => intro tr fl' hpsf; simp [processSingleFile] at hpsf
  | false =>
    intro tr fl' hpsf hfl
    rw [processSingleFile_eq] at hpsf
    have h := Option.some.inj hpsf
    rw [Prod.mk.injEq] at h
    obtain ⟨h1, h2⟩ := h
    subst h1
    subst h2
    cases fl with
    | true => exact Or.inl rfl
    | false =>
      simp only [Bool.false_or] at hfl
      obtain ⟨c, hc, hpred⟩ := List.any_eq_true.mp hfl
      refine Or.inr ⟨c.id, List.mem_append_left _ ?_, ?_⟩
      · simp only [List.mem_map]
        exact ⟨c, List.mem_filter.mpr ⟨hc, by simp_all⟩, rfl⟩
      · have hb : (d c.id == HttpResult.ok 204) = true := by simp_all
        exact eq_of_beq hb

theorem psf_trace_calls (d u : String → HttpResult) (p : String) (a : ArtifactData)
    (comps : List Component) (fl : Bool) :
    ∀ tr fl', processSingleFile d u p a comps fl = some (tr, fl') →
    tr.all (fun c => !(isTaskCall c) && !(isListCall c)) = true := by
  obtain ⟨ai, as, ar⟩ := a
  cases ar with
  | true => intro tr fl' hpsf; simp [processSingleFile] at hpsf
  | false =>
    intro tr fl' hpsf
    rw [processSingleFile_eq] at hpsf
    have h := Option.some.inj hpsf
    rw [Prod.mk.injEq] at h
    obtain ⟨h1, _⟩ := h
    subst h1
    simp only [List.all_append, Bool.and_eq_true]
    refine ⟨?_, ?_⟩
    · simp only [List.all_eq_true, List.mem_map]
      intro c hmem
      obtain ⟨x, hx, rfl⟩ := hmem
      simp [isTaskCall, isListCall]
    · split <;> simp [isTaskCall, isListCall]

theorem processFiles_trace_calls (d u : String → HttpResult) (comps : List Component) :
    ∀ (l : List (String × ArtifactData)) (fl : Bool),
    ((processFiles d u comps l fl).1).all (fun c => !(isTaskCall c) && !(isListCall c)) = true := by
  intro l
  induction l with
  | nil => intro fl; simp [processFiles]
  | cons q rest ih =>
    intro fl
    obtain ⟨p, a⟩ := q
    unfold processFiles
    cases hpsf : processSingleFile d u p a comps fl with
    | none => simp
    | some pr =>
      obtain ⟨tr, fl'⟩ := pr
      simp only [List.all_append, Bool.and_eq_true]
      exact ⟨psf_trace_calls d u p a comps fl tr fl' hpsf, ih fl'⟩

theorem processFiles_flag_origin (d u : String → HttpResult) (comps : List Component) :
    ∀ (l : List (String × ArtifactData)) (fl : Bool),
    (processFiles d u comps l fl).2.1 = true →
    fl = true ∨ ∃ i, NetCall.delete i ∈ (processFiles d u comps l fl).1 ∧
      d i = HttpResult.ok 204 := by
  intro l
  induction l with
  | nil =>
    intro fl h
    simp [processFiles] at h
    exact Or.inl h
  | cons q rest ih =>
    intro fl h
    obtain ⟨p, a⟩ := q
    unfold processFiles at h ⊢
    cases hpsf : processSingleFile d u p a comps fl with
    | none =>
      rw [hpsf] at h
      exact Or.inl h
    | some pr =>
      obtain ⟨tr, fl'⟩ := pr
      rw [hpsf] at h
      rcases ih fl' h with hfl' | ⟨i, hi, hd⟩
      · rcases psf_flag_origin d u p a comps fl tr fl' hpsf hfl' with h0 | ⟨i, hi, hd⟩
        · exact Or.inl h0
        · exact Or.inr ⟨i, List.mem_append_left _ hi, hd⟩
      · exact Or.inr ⟨i, List.mem_append_right _ hi, hd⟩

theorem all_not_task_of_list (tr : List NetCall) (h : tr.all isListCall = true) :
    tr.all (fun c => !(isTaskCall c)) = true := by
  simp only [List.all_eq_true] at h ⊢
  intro c hc
  have := h c hc
  cases c <;> simp_all [isListCall, isTaskCall]

theorem all_not_task_of_mut (tr : List NetCall)
    (h : tr.all (fun c => !(isTaskCall c) && !(isListCall c)) = true) :
    tr.all (fun c => !(isTaskCall c)) = true := by
  simp only [List.all_eq_true] at h ⊢
  intro c hc
  have h2 := h c hc
  simp only [Bool.and_eq_true] at h2
  exact h2.1

theorem listTasks_mem_rebuild (t : Option (List TaskItem)) (k : String → HttpResult) :
    NetCall.listTasks ∈ (runRebuildAptMetadata t k).1 := by
  unfold runRebuildAptMetadata
  cases t with
  | none => simp
  | some items =>
    rcases hf : items.find? (fun x => x.type == "repository.apt.rebuild.metadata") with _ | tk <;>
      simp [hf]

theorem finishRun_hasDeleted (pre : List NetCall) (fl : Bool) (env : RunEnv) :
    (finishRun pre fl env).hasDeleted = fl := by
  unfold finishRun
  split <;> rfl

theorem finishRun_failed (pre : List NetCall) (fl : Bool) (env : RunEnv) :
    (finishRun pre fl env).failed = false := by
  unfold finishRun
  split <;> rfl

/-- Proof device: the per-target part of `run` between the inventory fetch
and the conditional metadata rebuild, returning `(trace, flag, aborted)`
exactly as the corresponding branch of `run` computes them. -/
def bodyResult (env : RunEnv) (comps : List Component) : List NetCall × Bool × Bool :=
  match env.target with
  | Target.file p a =>
    if endsWithDeb p then
      match processSingleFile env.deleteResp env.uploadResp p a comps false with
      | none => ([], false, true)
      | some (tr, fl) => (tr, fl, false)
    else ([], false, true)
  | Target.dir p entries =>
    processFiles env.deleteResp env.uploadResp comps
      ((entries.filter (fun e => endsWithDeb e.1)).map (fun e => (joinPath p e.1, e.2))) false
  | Target.other => ([], false, true)

theorem run_eq_alt (env : RunEnv) :
    run env =
      (if (bodyResult env (getComponents env.pages).2).2.2 then
        { failed := true
          trace := (getComponents env.pages).1 ++ (bodyResult env (getComponents env.pages).2).1
          hasDeleted := (bodyResult env (getComponents env.pages).2).2.1 }
       else
        finishRun
          ((getComponents env.pages).1 ++ (bodyResult env (getComponents env.pages).2).1)
          (bodyResult env (getComponents env.pages).2).2.1 env) := by
  obtain ⟨pages, tgt, dr, ur, tk, trr⟩ := env
  unfold run bodyResult
  cases tgt with
  | file p a =>
    cases hdeb : endsWithDeb p with
    | false => simp [hdeb]
    | true =>
      cases hpsf : processSingleFile dr ur p a (getComponents pages).2 false with
      | none => simp [hdeb, hpsf]
      | some pr =>
        obtain ⟨tr, fl⟩ := pr
        simp [hdeb, hpsf]
  | dir p entries => simp
  | other => simp

theorem bodyResult_trace_calls (env : RunEnv) (comps : List Component) :
    ((bodyResult env comps).1).all (fun c => !(isTaskCall c) && !(isListCall c)) = true := by
  unfold bodyResult
  cases htgt : env.target with
  | file p a =>
    cases hdeb : endsWithDeb p with
    | false => simp [hdeb]
    | true =>
      cases hpsf : processSingleFile env.deleteResp env.uploadResp p a comps false with
      | none => simp [hdeb, hpsf]
      | some pr =>
        obtain ⟨tr, fl⟩ := pr
        simp only [hdeb, hpsf, if_true]
        exact psf_trace_calls _ _ p a comps false tr fl hpsf
  | dir p entries => exact processFiles_trace_calls _ _ _ _ _
  | other => simp

theorem bodyResult_file (env : RunEnv) (comps : List Component) (p : String)
    (a : ArtifactData) (h : env.target = Target.file p a) :
    bodyResult env comps =
      (if endsWithDeb p then
        (match processSingleFile env.deleteResp env.uploadResp p a comps false with
         | none => ([], false, true)
         | some (tr, fl) => (tr, fl, false))
       else ([], false, true)) := by
  unfold bodyResult
  rw [h]

theorem bodyResult_dir (env : RunEnv) (comps : List Component) (p : String)
    (entries : List (String × ArtifactData)) (h : env.target = Target.dir p entries) :
    bodyResult env comps =
      processFiles env.deleteResp env.uploadResp comps
        ((entries.filter (fun e => endsWithDeb e.1)).map (fun e => (joinPath p e.1, e.2)))
        false := by
  unfold bodyResult
  rw [h]

theorem bodyResult_flag_origin (env : RunEnv) (comps : List Component)
    (h : (bodyResult env comps).2.1 = true) :
    ∃ i, NetCall.delete i ∈ (bodyResult env comps).1 ∧
      env.deleteResp i = HttpResult.ok 204 := by
  cases htgt : env.target with
  | file p a =>
    rw [bodyResult_file env comps p a htgt] at h ⊢
    cases hdeb : endsWithDeb p with
    | false =>
      rw [hdeb] at h
      rw [if_neg (by simp)] at h
      simp at h
    | true =>
      rw [hdeb] at h
      rw [if_pos rfl] at h
      rw [if_pos rfl]
      cases hpsf : processSingleFile env.deleteResp env.uploadResp p a comps false with
      | none => rw [hpsf] at h; simp at h
      | some pr =>
        obtain ⟨tr, fl⟩ := pr
        rw [hpsf] at h
        have h2 : fl = true := h
        rcases psf_flag_origin _ _ p a comps false tr fl hpsf h2 with h0 | ⟨i, hi, hd⟩
        · exact absurd h0 (by simp)
        · exact ⟨i, hi, hd⟩
  | dir p entries =>
    rw [bodyResult_dir env comps p entries htgt] at h ⊢
    rcases processFiles_flag_origin env.deleteResp env.uploadResp comps
        ((entries.filter (fun e => endsWithDeb e.1)).map (fun e => (joinPath p e.1, e.2)))
        false h with h0 | ⟨i, hi, hd⟩
    · exact absurd h0 (by simp)
    · exact ⟨i, hi, hd⟩
  | other =>
    unfold bodyResult at h
    rw [htgt] at h
    simp at h

theorem finishRun_trace_pre (pre : List NetCall) (fl : Bool) (env : RunEnv) (c : NetCall)
    (h : c ∈ pre) : c ∈ (finishRun pre fl env).trace := by
  unfold finishRun
  split
  · exact List.mem_append_left _ h
  · exact h

theorem run_no_task_of_no_delete (env : RunEnv) (h : (run env).hasDeleted = false) :
    ((run env).trace).all (fun c => !(isTaskCall c)) = true := by
  rw [run_eq_alt] at h ⊢
  have hlist := all_not_task_of_list _ (getComponentsLoop_calls env.pages none)
  have hbody := all_not_task_of_mut _ (bodyResult_trace_calls env (getComponents env.pages).2)
  cases hab : (bodyResult env (getComponents env.pages).2).2.2 with
  | true =>
    simp only [hab, if_true]
    simp only [List.all_append, Bool.and_eq_true]
    exact ⟨hlist, hbody⟩
  | false =>
    simp only [hab, Bool.false_eq_true, if_false] at h ⊢
    rw [finishRun_hasDeleted] at h
    rw [h]
    unfold finishRun
    simp only [Bool.false_eq_true, if_false]
    simp only [List.all_append, Bool.and_eq_true]
    exact ⟨hlist, hbody⟩

theorem run_flag_origin (env : RunEnv) (h : (run env).hasDeleted = true) :
    ∃ i, NetCall.delete i ∈ (run env).trace ∧ env.deleteResp i = HttpResult.ok 204 := by
  rw [run_eq_alt] at h ⊢
  cases hab : (bodyResult env (getComponents env.pages).2).2.2 with
  | true =>
    simp only [hab, if_true] at h ⊢
    obtain ⟨i, hi, hd⟩ := bodyResult_flag_origin env _ h
    exact ⟨i, List.mem_append_right _ hi, hd⟩
  | false =>
    simp only [hab, Bool.false_eq_true, if_false] at h ⊢
    rw [finishRun_hasDeleted] at h
    obtain ⟨i, hi, hd⟩ := bodyResult_flag_origin env _ h
    exact ⟨i, finishRun_trace_pre _ _ env _ (List.mem_append_right _ hi), hd⟩

theorem run_listTasks_iff (env : RunEnv) (hfail : (run env).failed = false) :
    ((run env).hasDeleted = true ↔ NetCall.listTasks ∈ (run env).trace) := by
  constructor
  · intro hdel
    rw [run_eq_alt] at hfail hdel ⊢
    cases hab : (bodyResult env (getComponents env.pages).2).2.2 with
    | true => simp [hab] at hfail
    | false =>
      simp only [hab, Bool.false_eq_true, if_false] at hdel ⊢
      rw [finishRun_hasDeleted] at hdel
      rw [hdel]
      unfold finishRun
      simp only [if_true]
      exact List.mem_append_right _ (listTasks_mem_rebuild _ _)
  · intro hmem
    by_contra hdel
    have hfalse : (run env).hasDeleted = false := by
      cases hv : (run env).hasDeleted
      · rfl
      · exact absurd hv hdel
    have hall := run_no_task_of_no_delete env hfalse
    simp only [List.all_eq_true] at hall
    have := hall _ hmem
    simp [isTaskCall] at this

theorem deleteCallsOf_append (l1 l2 : List NetCall) :
    deleteCallsOf (l1 ++ l2) = deleteCallsOf l1 ++ deleteCallsOf l2 := by
  unfold deleteCallsOf
  exact List.filterMap_append l1 l2 _

theorem uploadCallsOf_append (l1 l2 : List NetCall) :
    uploadCallsOf (l1 ++ l2) = uploadCallsOf l1 ++ uploadCallsOf l2 := by
  unfold uploadCallsOf
  exact List.filterMap_append l1 l2 _

theorem deleteCallsOf_deletes (l : List Component) :
    deleteCallsOf (l.map (fun c => NetCall.delete c.id)) = l.map Component.id := by
  induction l with
  | nil => rfl
  | cons c cs ih => simp only [List.map_cons, deleteCallsOf, List.filterMap_cons] at ih ⊢; rw [ih]

theorem uploadCallsOf_deletes (l : List Component) :
    uploadCallsOf (l.map (fun c => NetCall.delete c.id)) = [] := by
  induction l with
  | nil => rfl
  | cons c cs ih => simp only [List.map_cons, uploadCallsOf, List.filterMap_cons] at ih ⊢; rw [ih]

/-! ## Claim theorems -/

/-- C3: per-artifact decision policy of `processSingleFile`: a matching
record whose SHA-256 equals the artifact's marks the artifact current and is
not deleted; every other matching record (different SHA-256, or no recorded
SHA-256, i.e. `"-"`, which cannot equal the artifact's real digest) gets a
delete request; the upload is issued iff no matching record had an equal
SHA-256 — one equal match suppresses the upload even when other stale
matches were deleted. -/
theorem c3_decision_policy (d u : String → HttpResult) (p : String) (info : FileInfo)
    (sha : String) (comps : List Component) (fl : Bool) (hsha : sha ≠ "-") :
    ∀ tr fl', processSingleFile d u p ⟨info, sha, false⟩ comps fl = some (tr, fl') →
      (deleteCallsOf tr =
        (comps.filter (fun c => componentMatches c info && !(c.sha256 == sha))).map Component.id)
      ∧ (uploadCallsOf tr = [p] ↔
          ∀ c ∈ comps, componentMatches c info = true → c.sha256 ≠ sha)
      ∧ (∀ c ∈ comps, componentMatches c info = true → c.sha256 = "-" →
          c.id ∈ deleteCallsOf tr) := by
  intro tr fl' hpsf
  rw [processSingleFile_eq] at hpsf
  have h := Option.some.inj hpsf
  rw [Prod.mk.injEq] at h
  obtain ⟨h1, _⟩ := h
  subst h1
  refine ⟨?_, ?_, ?_⟩
  · rw [deleteCallsOf_append, deleteCallsOf_deletes]
    split <;> simp [deleteCallsOf]
  · rw [uploadCallsOf_append, uploadCallsOf_deletes]
    cases hall : comps.all (fun c => !(componentMatches c info && c.sha256 == sha)) with
    | false =>
      rw [if_neg (by simp [hall])]
      constructor
      · intro hup
        exact absurd hup (by simp [uploadCallsOf])
      · intro hforall
        exfalso
        have : comps.all (fun c => !(componentMatches c info && c.sha256 == sha)) = true := by
          simp only [List.all_eq_true]
          intro c hc
          by_cases hm : componentMatches c info = true
          · have := hforall c hc hm
            simp [hm, this]
          · simp only [Bool.not_eq_true] at hm
            simp [hm]
        rw [hall] at this
        exact Bool.noConfusion this
    | true =>
      rw [if_pos rfl]
      constructor
      · intro _
        intro c hc hm
        simp only [List.all_eq_true] at hall
        have := hall c hc
        simp [hm] at this
        exact this
      · intro _
        simp [uploadCallsOf]
  · intro c hc hm hdash
    rw [deleteCallsOf_append, deleteCallsOf_deletes]
    apply List.mem_append_left
    rw [List.mem_map]
    refine ⟨c, ?_, rfl⟩
    rw [List.mem_filter]
    refine ⟨hc, ?_⟩
    have hne : ¬(c.sha256 = sha) := by
      rw [hdash]
      exact fun hcon => hsha hcon.symm
    simp [hm, hne]

def c3Info : FileInfo := ⟨"foo", "amd64", "1.0"⟩

def c3Comps : List Component :=
  [⟨"i1", "foo", "amd64", "1.0", "abc"⟩, ⟨"i2", "foo", "amd64", "1.0", "-"⟩]

theorem c3_witness :
    ("abc" : String) ≠ "-" ∧
    processSingleFile (fun _ => HttpResult.ok 204) (fun _ => HttpResult.ok 204) "foo.deb"
      ⟨c3Info, "abc", false⟩ c3Comps false = some ([NetCall.delete "i2"], true) ∧
    ((deleteCallsOf [NetCall.delete "i2"] =
        (c3Comps.filter (fun c => componentMatches c c3Info && !(c.sha256 == "abc"))).map
          Component.id)
      ∧ (uploadCallsOf [NetCall.delete "i2"] = ["foo.deb"] ↔
          ∀ c ∈ c3Comps, componentMatches c c3Info = true → c.sha256 ≠ "abc")
      ∧ (∀ c ∈ c3Comps, componentMatches c c3Info = true → c.sha256 = "-" →
          c.id ∈ deleteCallsOf [NetCall.delete "i2"])) :=
  ⟨by decide, by decide,
    c3_decision_policy (fun _ => HttpResult.ok 204) (fun _ => HttpResult.ok 204) "foo.deb"
      c3Info "abc" c3Comps false (by decide) [NetCall.delete "i2"] true (by decide)⟩

/-- C4: the matching rule: a record matches the descriptor iff the names are
equal, the groups are equal or either side is the `"-"` sentinel, and the
versions are equal or either side is the sentinel; a descriptor with
sentinel group and version matches every record with the same name; and all
matching (stale) records are visited by the loop, not only the first. -/
theorem c4_matching_rule (comp : Component) (info : FileInfo) :
    (componentMatches comp info = true ↔
      (comp.name = info.name ∧
       (comp.group = info.group ∨ comp.group = "-" ∨ info.group = "-") ∧
       (comp.version = info.version ∨ comp.version = "-" ∨ info.version = "-")))
    ∧ (info.group = "-" → info.version = "-" → comp.name = info.name →
        componentMatches comp info = true)
    ∧ (∀ (d u : String → HttpResult) (p sha : String) (comps : List Component) (fl : Bool)
        (tr : List NetCall) (fl' : Bool),
        processSingleFile d u p ⟨info, sha, false⟩ comps fl = some (tr, fl') →
        ∀ c ∈ comps, componentMatches c info = true → (c.sha256 == sha) = false →
        NetCall.delete c.id ∈ tr) := by
  refine ⟨?_, ?_, ?_⟩
  · simp only [componentMatches, Bool.and_eq_true, Bool.or_eq_true, beq_iff_eq]
    tauto
  · intro hg hv hn
    simp [componentMatches, hg, hv, hn]
  · intro d u p sha comps fl tr fl' hpsf c hc hm hsha
    rw [processSingleFile_eq] at hpsf
    have h := Option.some.inj hpsf
    rw [Prod.mk.injEq] at h
    obtain ⟨h1, _⟩ := h
    subst h1
    apply List.mem_append_left
    rw [List.mem_map]
    refine ⟨c, ?_, rfl⟩
    rw [List.mem_filter]
    exact ⟨hc, by simp [hm, hsha]⟩

theorem c4_witness :
    componentMatches ⟨"i9", "foo", "arm64", "2.3.4", "zz"⟩ ⟨"foo", "-", "-"⟩ = true :=
  (c4_matching_rule ⟨"i9", "foo", "arm64", "2.3.4", "zz"⟩ ⟨"foo", "-", "-"⟩).2.1 rfl rfl rfl

def c7Info : FileInfo := ⟨"foo", "amd64", "1.0.0"⟩

def c7Current : Component := ⟨"c1", "foo", "amd64", "1.0.0", "abc123"⟩

def c7Stale : Component := ⟨"c2", "foo", "-", "1.0.0", "xyz789"⟩

/-- C7 counterexample: the descriptor matches the record `c7Current`
exactly, including an equal fingerprint, yet reconciling the artifact
issues a delete request (for the second, stale matching record `c7Stale`),
so the claim "no delete and no upload call" is false as stated. -/
theorem c7_counterexample :
    componentMatches c7Current c7Info = true ∧ c7Current.sha256 = "abc123" ∧
    processSingleFile (fun _ => HttpResult.ok 204) (fun _ => HttpResult.ok 204) "foo.deb"
      ⟨c7Info, "abc123", false⟩ [c7Current, c7Stale] false =
      some ([NetCall.delete "c2"], true) := by
  refine ⟨by decide, by decide, by decide⟩

/-- C7 amended: if the descriptor matches at least one snapshot record and
every matching record's fingerprint equals the artifact's, then reconciling
the artifact issues no delete and no upload call and leaves the deletion
flag unchanged — re-running reconciliation against an already-synced
registry is a no-op. -/
theorem c7_amended_no_mutation (d u : String → HttpResult) (p : String) (info : FileInfo)
    (sha : String) (comps : List Component) (fl : Bool)
    (hmatch : ∃ c ∈ comps, componentMatches c info = true)
    (hall : ∀ c ∈ comps, componentMatches c info = true → c.sha256 = sha) :
    processSingleFile d u p ⟨info, sha, false⟩ comps fl = some ([], fl) := by
  rw [processSingleFile_eq]
  have hfilter : comps.filter (fun c => componentMatches c info && !(c.sha256 == sha)) = [] := by
    rw [List.filter_eq_nil_iff]
    intro c hc
    by_cases hm : componentMatches c info = true
    · simp [hm, hall c hc hm]
    · simp only [Bool.not_eq_true] at hm
      simp [hm]
  have hcond : comps.all (fun c => !(componentMatches c info && c.sha256 == sha)) = false := by
    obtain ⟨c, hc, hm⟩ := hmatch
    cases hv : comps.all (fun c => !(componentMatches c info && c.sha256 == sha)) with
    | false => rfl
    | true =>
      exfalso
      simp only [List.all_eq_true] at hv
      have := hv c hc
      simp [hm, hall c hc hm] at this
  have hany : comps.any (fun c => componentMatches c info && !(c.sha256 == sha)
      && (d c.id == HttpResult.ok 204)) = false := by
    cases hv : comps.any (fun c => componentMatches c info && !(c.sha256 == sha)
        && (d c.id == HttpResult.ok 204)) with
    | false => rfl
    | true =>
      exfalso
      obtain ⟨c, hc, hpred⟩ := List.any_eq_true.mp hv
      by_cases hm : componentMatches c info = true
      · have := hall c hc hm
        simp [hm, this] at hpred
      · simp only [Bool.not_eq_true] at hm
        simp [hm] at hpred
  rw [hfilter, hcond, hany]
  simp

theorem c7_witness :
    (∃ c ∈ [c7Current], componentMatches c c7Info = true) ∧
    (∀ c ∈ [c7Current], componentMatches c c7Info = true → c.sha256 = "abc123") ∧
    processSingleFile (fun _ => HttpResult.err) (fun _ => HttpResult.err) "foo.deb"
      ⟨c7Info, "abc123", false⟩ [c7Current] false = some ([], false) :=
  ⟨by decide, by decide,
    c7_amended_no_mutation (fun _ => HttpResult.err) (fun _ => HttpResult.err) "foo.deb"
      c7Info "abc123" [c7Current] false (by decide) (by decide)⟩

/-- C8: an artifact that matches no record in the snapshot gets exactly one
upload request and zero delete requests, and leaves the deletion flag
unchanged. -/
theorem c8_no_match_single_upload (d u : String → HttpResult) (p : String) (info : FileInfo)
    (sha : String) (comps : List Component) (fl : Bool)
    (hnone : ∀ c ∈ comps, componentMatches c info = false) :
    processSingleFile d u p ⟨info, sha, false⟩ comps fl = some ([NetCall.upload p], fl) := by
  rw [processSingleFile_eq]
  have hfilter : comps.filter (fun c => componentMatches c info && !(c.sha256 == sha)) = [] := by
    rw [List.filter_eq_nil_iff]
    intro c hc
    simp [hnone c hc]
  have hcond : comps.all (fun c => !(componentMatches c info && c.sha256 == sha)) = true := by
    simp only [List.all_eq_true]
    intro c hc
    simp [hnone c hc]
  have hany : comps.any (fun c => componentMatches c info && !(c.sha256 == sha)
      && (d c.id == HttpResult.ok 204)) = false := by
    cases hv : comps.any (fun c => componentMatches c info && !(c.sha256 == sha)
        && (d c.id == HttpResult.ok 204)) with
    | false => rfl
    | true =>
      exfalso
      obtain ⟨c, hc, hpred⟩ := List.any_eq_true.mp hv
      simp [hnone c hc] at hpred
  rw [hfilter, hcond, hany]
  simp

theorem c8_witness :
    (∀ c ∈ [c7Current], componentMatches c ⟨"bar", "amd64", "3.0"⟩ = false) ∧
    processSingleFile (fun _ => HttpResult.ok 204) (fun _ => HttpResult.ok 204) "bar.deb"
      ⟨⟨"bar", "amd64", "3.0"⟩, "s1", false⟩ [c7Current] false =
      some ([NetCall.upload "bar.deb"], false) :=
  ⟨by decide,
    c8_no_match_single_upload (fun _ => HttpResult.ok 204) (fun _ => HttpResult.ok 204)
      "bar.deb" ⟨"bar", "amd64", "3.0"⟩ "s1" [c7Current] false (by decide)⟩

theorem splitChars_no_sep (sep : Char) (l : List Char) (h : sep ∉ l) :
    splitChars sep l = [l] := by
  induction l with
  | nil => rfl
  | cons c cs ih =>
    have hc : ¬(c = sep) := fun hcon => h (hcon ▸ List.mem_cons_self c cs)
    unfold splitChars
    rw [ih (fun hm => h (List.mem_cons_of_mem _ hm))]
    simp [hc]

theorem string_mk_data (s : String) : String.mk s.data = s := by
  obtain ⟨l⟩ := s
  rfl

theorem jsSplit_no_sep (sep : Char) (s : String) (h : sep ∉ s.data) :
    jsSplit sep s = [s] := by
  unfold jsSplit
  rw [splitChars_no_sep sep s.data h]
  simp [string_mk_data]

/-- C10 (amended): for a `.deb` basename with no underscore, the extracted
name and group are both the entire basename (with `"-"` substituted when it
is empty) and they are equal, and the version is the sentinel `"-"`; for a
basename splitting into exactly two parts (one underscore), the version is
also `"-"` while name and group are the two parts (again with `"-"` for an
empty part).  The group is therefore usually non-wildcard, but it IS the
sentinel when the basename or its final part is itself `"-"` or empty. -/
theorem c10_filename_fallback (b : String) :
    (('_' ∉ b.data) →
      (extractInfoFromFilename b).name = jsOrElse b "-" ∧
      (extractInfoFromFilename b).group = (extractInfoFromFilename b).name ∧
      (extractInfoFromFilename b).version = "-")
    ∧ (∀ x y : String, jsSplit '_' b = [x, y] →
        (extractInfoFromFilename b).name = jsOrElse x "-" ∧
        (extractInfoFromFilename b).group = jsOrElse y "-" ∧
        (extractInfoFromFilename b).version = "-") := by
  constructor
  · intro h
    unfold extractInfoFromFilename
    rw [jsSplit_no_sep '_' b h]
    simp [jsOrElse]
  · intro x y h
    unfold extractInfoFromFilename
    rw [h]
    simp [jsOrElse]

/-- C10 counterexample: the basename `"-"` (from a file named `-.deb`)
contains no underscore, and the extracted group is the sentinel `"-"`
itself — which acts as a wildcard in matching, as the third conjunct shows:
the descriptor matches a record with a completely different group and
version.  This contradicts the claim that such descriptors carry a
non-wildcard group. -/
theorem c10_counterexample :
    ('_' ∉ ("-" : String).data) ∧
    extractInfoFromFilename "-" = ⟨"-", "-", "-"⟩ ∧
    componentMatches ⟨"i7", "-", "arm64", "9.9", "s"⟩ (extractInfoFromFilename "-") = true := by
  refine ⟨by decide, by decide, by decide⟩

theorem c10_witness :
    ('_' ∉ ("pkg" : String).data) ∧
    ((extractInfoFromFilename "pkg").name = jsOrElse "pkg" "-" ∧
     (extractInfoFromFilename "pkg").group = (extractInfoFromFilename "pkg").name ∧
     (extractInfoFromFilename "pkg").version = "-") ∧
    jsSplit '_' "name_arch" = ["name", "arch"] ∧
    ((extractInfoFromFilename "name_arch").name = jsOrElse "name" "-" ∧
     (extractInfoFromFilename "name_arch").group = jsOrElse "arch" "-" ∧
     (extractInfoFromFilename "name_arch").version = "-") :=
  ⟨by decide, (c10_filename_fallback "pkg").1 (by decide), by decide,
   (c10_filename_fallback "name_arch").2 "name" "arch" (by decide)⟩

/-- C5: for a registry response sequence in which every page but the last
carries a continuation cursor and the last does not, `getComponents` issues
exactly one request per page (the first with no cursor, each subsequent one
with the previous response's cursor), terminates on the cursor-less
response, and returns the concatenation of the parsed items of all pages. -/
theorem c5_pagination (mid : List Page) (last : Page)
    (hmid : ∀ p ∈ mid, p.continuationToken ≠ none)
    (hlast : last.continuationToken = none) :
    (getComponents (mid ++ [last])).1 =
      NetCall.listPage none :: mid.map (fun p => NetCall.listPage p.continuationToken)
    ∧ (getComponents (mid ++ [last])).1.length = (mid ++ [last]).length
    ∧ (getComponents (mid ++ [last])).2 =
      ((mid ++ [last]).map (fun p => p.items.map parseItem)).flatten := by
  have h := getComponentsLoop_spec last hlast mid none hmid
  unfold getComponents
  rw [h]
  refine ⟨rfl, ?_, rfl⟩
  simp

def c5Item : Item := ⟨"i1", "foo", some "amd64", some "1.0", [⟨some ⟨some "abc"⟩⟩]⟩

def c5Page1 : Page := ⟨[c5Item], some "tok1"⟩

def c5Page2 : Page := ⟨[], none⟩

theorem c5_witness :
    (∀ p ∈ [c5Page1], p.continuationToken ≠ none) ∧
    c5Page2.continuationToken = none ∧
    (getComponents [c5Page1, c5Page2]).1 =
      [NetCall.listPage none, NetCall.listPage (some "tok1")] ∧
    (getComponents [c5Page1, c5Page2]).2 = [⟨"i1", "foo", "amd64", "1.0", "abc"⟩] := by
  have h := c5_pagination [c5Page1] c5Page2 (by decide) (by decide)
  refine ⟨by decide, by decide, ?_, ?_⟩
  · show (getComponents ([c5Page1] ++ [c5Page2])).1 = _
    rw [h.1]
    decide
  · show (getComponents ([c5Page1] ++ [c5Page2])).2 = _
    rw [h.2.2]
    decide

def c1Entries : List (String × ArtifactData) :=
  [("a.deb", ⟨⟨"a", "-", "-"⟩, "sa", false⟩), ("b.deb", ⟨⟨"b", "-", "-"⟩, "sb", false⟩)]

def c1Env : RunEnv :=
  { pages := [⟨[], none⟩]
    target := Target.dir "d" c1Entries
    deleteResp := fun _ => HttpResult.err
    uploadResp := fun _ => HttpResult.err
    tasksResp := none
    taskRunResp := fun _ => HttpResult.err }

/-- C1 counterexample: in this run every upload fails (the registry answers
with a transport error, so `uploadComponent` returns `false`), yet the
failure of the first artifact's upload is not propagated: the second
artifact is still processed (its upload request appears in the trace) and
the run reports success (`failed = false`), contradicting the claim that a
failed upload aborts remaining artifacts and makes the run fail. -/
theorem c1_counterexample :
    uploadComponent (c1Env.uploadResp "d/a.deb") = false ∧
    run c1Env = ⟨false, [NetCall.listPage none, NetCall.upload "d/a.deb",
      NetCall.upload "d/b.deb"], false⟩ := by
  refine ⟨rfl, by decide⟩

/-- C1 (amended): a failed upload is swallowed — `uploadComponent` catches
the error and returns `false`, and `processSingleFile` ignores that result.
For every directory run whose artifacts are all readable, whatever the
registry's upload responses, the run reports success, and every `.deb`
entry with no fingerprint-current match still gets its upload request
(later artifacts are processed even when an earlier upload failed).  Only a
thrown error (a file-read failure) aborts the run. -/
theorem c1_upload_failure_not_fatal (env : RunEnv) (p : String)
    (entries : List (String × ArtifactData))
    (htgt : env.target = Target.dir p entries)
    (hread : ∀ e ∈ entries, e.2.readError = false) :
    (run env).failed = false ∧
    ∀ e ∈ entries, endsWithDeb e.1 = true →
      ((getComponents env.pages).2).all
        (fun c => !(componentMatches c e.2.info && c.sha256 == e.2.sha256)) = true →
      NetCall.upload (joinPath p e.1) ∈ (run env).trace := by
  rw [run_eq_alt, bodyResult_dir env (getComponents env.pages).2 p entries htgt]
  have hreadf : ∀ x ∈ (entries.filter (fun e => endsWithDeb e.1)).map
      (fun e => (joinPath p e.1, e.2)), x.2.readError = false := by
    intro x hx
    obtain ⟨e, he, rfl⟩ := List.mem_map.mp hx
    exact hread e (List.mem_filter.mp he).1
  have hab := processFiles_not_aborted env.deleteResp env.uploadResp
    (getComponents env.pages).2
    ((entries.filter (fun e => endsWithDeb e.1)).map (fun e => (joinPath p e.1, e.2)))
    false hreadf
  rw [hab, if_neg (by simp)]
  refine ⟨finishRun_failed _ _ _, ?_⟩
  intro e he hdeb hnomatch
  apply finishRun_trace_pre
  apply List.mem_append_right
  exact processFiles_upload_mem env.deleteResp env.uploadResp (getComponents env.pages).2
    _ false (joinPath p e.1, e.2)
    (List.mem_map.mpr ⟨e, List.mem_filter.mpr ⟨he, hdeb⟩, rfl⟩) hreadf hnomatch

theorem c1_witness :
    (c1Env.target = Target.dir "d" c1Entries) ∧
    (∀ e ∈ c1Entries, e.2.readError = false) ∧
    ((run c1Env).failed = false ∧
     ∀ e ∈ c1Entries, endsWithDeb e.1 = true →
       ((getComponents c1Env.pages).2).all
         (fun c => !(componentMatches c e.2.info && c.sha256 == e.2.sha256)) = true →
       NetCall.upload (joinPath "d" e.1) ∈ (run c1Env).trace) :=
  ⟨rfl, by decide, c1_upload_failure_not_fatal c1Env "d" c1Entries rfl (by decide)⟩

def c2Env : RunEnv :=
  { pages := [⟨[], none⟩]
    target := Target.file "readme.txt" ⟨⟨"readme", "-", "-"⟩, "s0", false⟩
    deleteResp := fun _ => HttpResult.err
    uploadResp := fun _ => HttpResult.err
    tasksResp := none
    taskRunResp := fun _ => HttpResult.err }

/-- C2 counterexample: a run whose single-file target `readme.txt` lacks
the `.deb` extension does fail, but the component-inventory listing request
has already been issued before the extension check — its `listPage` request
is in the trace — contradicting "no registry request is ever issued during
such a run". -/
theorem c2_counterexample :
    endsWithDeb "readme.txt" = false ∧
    run c2Env = ⟨true, [NetCall.listPage none], false⟩ := by
  refine ⟨by decide, by decide⟩

/-- C2 (amended): a run whose single-file target lacks the `.deb` extension
fails, and issues no delete, upload, or task request — but the inventory
listing requests are issued first, so the trace consists exactly of
component-listing page requests. -/
theorem c2_invalid_input (env : RunEnv) (p : String) (a : ArtifactData)
    (htgt : env.target = Target.file p a) (hdeb : endsWithDeb p = false) :
    (run env).failed = true ∧ ((run env).trace).all isListCall = true := by
  have hb : bodyResult env (getComponents env.pages).2 = ([], false, true) := by
    rw [bodyResult_file env (getComponents env.pages).2 p a htgt, hdeb]
    rw [if_neg (by simp)]
  rw [run_eq_alt, hb]
  refine ⟨rfl, ?_⟩
  show ((getComponents env.pages).1 ++ ([] : List NetCall)).all isListCall = true
  rw [List.append_nil]
  exact getComponentsLoop_calls env.pages none

theorem c2_witness :
    (c2Env.target = Target.file "readme.txt" ⟨⟨"readme", "-", "-"⟩, "s0", false⟩) ∧
    endsWithDeb "readme.txt" = false ∧
    ((run c2Env).failed = true ∧ ((run c2Env).trace).all isListCall = true) :=
  ⟨rfl, by decide,
    c2_invalid_input c2Env "readme.txt" ⟨⟨"readme", "-", "-"⟩, "s0", false⟩ rfl (by decide)⟩

def c6Item : Item := ⟨"c1", "a", some "amd64", some "1.0", [⟨some ⟨some "zz"⟩⟩]⟩

def c6Env : RunEnv :=
  { pages := [⟨[c6Item], none⟩]
    target := Target.dir "d" [("a.deb", ⟨⟨"a", "amd64", "1.0"⟩, "sa", false⟩),
                              ("b.deb", ⟨⟨"b", "-", "-"⟩, "sb", true⟩)]
    deleteResp := fun _ => HttpResult.ok 204
    uploadResp := fun _ => HttpResult.ok 204
    tasksResp := some [⟨"t1", "repository.apt.rebuild.metadata"⟩]
    taskRunResp := fun _ => HttpResult.ok 204 }

/-- C6 counterexample: in this run the first artifact's stale match is
deleted with status 204 (a deletion occurs, the final flag is `true`), but
the second artifact's file read throws, the run aborts, and the
index-rebuild task endpoints are never invoked — so "triggered if at least
one deletion occurred" is false for aborted runs. -/
theorem c6_counterexample :
    run c6Env = ⟨true, [NetCall.listPage none, NetCall.delete "c1",
      NetCall.upload "d/a.deb"], true⟩ ∧
    c6Env.deleteResp "c1" = HttpResult.ok 204 ∧
    ((run c6Env).trace).all (fun c => !(isTaskCall c)) = true := by
  refine ⟨by decide, rfl, by decide⟩

/-- C6 (amended): the task-listing and task-run endpoints are never invoked
in a run whose final deletion flag is `false`; in a run that completes
without a fatal error, the rebuild (task listing) is invoked iff the flag
is `true`; and whenever the flag is `true`, some delete request in the
trace actually received status 204 — so without any successful deletion the
task endpoints are never touched, while an aborted run skips the rebuild
even after a deletion. -/
theorem c6_rebuild_iff (env : RunEnv) :
    ((run env).hasDeleted = false →
      ((run env).trace).all (fun c => !(isTaskCall c)) = true)
    ∧ ((run env).failed = false →
        ((run env).hasDeleted = true ↔ NetCall.listTasks ∈ (run env).trace))
    ∧ ((run env).hasDeleted = true →
        ∃ i, NetCall.delete i ∈ (run env).trace ∧ env.deleteResp i = HttpResult.ok 204) :=
  ⟨run_no_task_of_no_delete env, run_listTasks_iff env, run_flag_origin env⟩

def c6EnvB : RunEnv :=
  { c6Env with target := Target.dir "d" [("a.deb", ⟨⟨"a", "amd64", "1.0"⟩, "sa", false⟩)] }

theorem c6_witness :
    (run c6EnvB).failed = false ∧
    ((run c6EnvB).hasDeleted = true ↔ NetCall.listTasks ∈ (run c6EnvB).trace) :=
  ⟨by decide, (c6_rebuild_iff c6EnvB).2.1 (by decide)⟩

/-- C9: the `hasDeletedComponent` flag is set to `true` only by a delete
response with status 204; a delete that fails or returns any other status
leaves the flag unchanged; once `true` it is never reset; and a run in
which every delete response differs from 204 never invokes the
metadata-rebuild task endpoints. -/
theorem c9_flag_204_only (resp : HttpResult) (fl : Bool) (env : RunEnv) :
    ((deleteComponent (HttpResult.ok 204) fl).2 = true)
    ∧ (resp ≠ HttpResult.ok 204 → (deleteComponent resp fl).2 = fl)
    ∧ ((deleteComponent resp true).2 = true)
    ∧ ((∀ i, env.deleteResp i ≠ HttpResult.ok 204) →
        ((run env).trace).all (fun c => !(isTaskCall c)) = true) := by
  refine ⟨by simp [deleteComponent], ?_, ?_, ?_⟩
  · intro hne
    rw [deleteComponent_flag]
    cases hb : (resp == HttpResult.ok 204) with
    | false => simp
    | true => exact absurd (eq_of_beq hb) hne
  · rw [deleteComponent_flag]
    simp
  · intro hall
    apply run_no_task_of_no_delete
    cases hv : (run env).hasDeleted with
    | false => rfl
    | true =>
      exfalso
      obtain ⟨i, _, hd⟩ := run_flag_origin env hv
      exact hall i hd

def c9Env : RunEnv :=
  { c6Env with
    deleteResp := fun _ => HttpResult.ok 500
    target := Target.dir "d" [("a.deb", ⟨⟨"a", "amd64", "1.0"⟩, "sa", false⟩)] }

theorem c9_witness :
    (HttpResult.ok 500 ≠ HttpResult.ok 204) ∧
    (deleteComponent (HttpResult.ok 500) false).2 = false ∧
    (∀ i, c9Env.deleteResp i ≠ HttpResult.ok 204) ∧
    ((run c9Env).trace).all (fun c => !(isTaskCall c)) = true := by
  have hall : ∀ i, c9Env.deleteResp i ≠ HttpResult.ok 204 := by
    intro i h
    have h2 : HttpResult.ok 500 = HttpResult.ok 204 := h
    exact absurd h2 (by decide)
  exact ⟨by decide, by decide, hall,
    (c9_flag_204_only (HttpResult.ok 500) false c9Env).2.2.2 hall⟩

end NexusUpload
